import Mathlib

/-!
Verification of the Lumachat incremental stream-to-render pipeline.

Texts are modelled as lists of characters (`Str`).  The definitions below
are shallow embeddings of the functions in `pages/index.tsx` (safety
predicate `isBalanced`, segmenter `splitThinkBlocks`, the streaming buffer
update in `sendMessage`) and of the relay in `pages/api/chat.ts`.
-/

abbrev Str := List Char

/-- Embedding of the JavaScript global-regex occurrence count for a literal
pattern: scan the text left to right; at a match, count it and resume
scanning after the matched characters (the head character is consumed by the
outer recursion, so `pat.length - 1` further characters are skipped). -/
def countOccGo (pat : Str) (skip : Nat) : Str → Nat
  | [] => 0
  | c :: tl =>
    match skip with
    | s + 1 => countOccGo pat s tl
    | 0 =>
      if pat.isPrefixOf (c :: tl) then countOccGo pat (pat.length - 1) tl + 1
      else countOccGo pat 0 tl

/-- Number of non-overlapping left-to-right occurrences of `pat` in a text,
as computed by `text.match(/pat/g).length` in the source. -/
def countOcc (pat : Str) (md : Str) : Nat := countOccGo pat 0 md

/-- The three-backtick code-fence delimiter counted by `isBalanced`. -/
def fenceTok : Str := "```".toList

/-- The double-dollar math-block delimiter counted by `isBalanced`. -/
def mathTok : Str := "$$".toList

/-- Embedding of `isBalanced` (pages/index.tsx): the accumulated text is safe
to render iff the code-fence count and the math-delimiter count are both
even. -/
def isBalanced (md : Str) : Bool :=
  countOcc fenceTok md % 2 == 0 && countOcc mathTok md % 2 == 0

/-- A segment produced by the segmenter: a run of text together with the flag
saying whether it came from inside a think region. -/
structure Segment where
  content : Str
  isThink : Bool
deriving DecidableEq

/-- ASCII lowercasing of one character, as JavaScript case-insensitive regex
matching canonicalises the ASCII letters of the tag patterns. -/
def lowerA (c : Char) : Char :=
  if c.toNat ≥ 65 ∧ c.toNat ≤ 90 then Char.ofNat (c.toNat + 32) else c

/-- Does the text start with the (lowercase) pattern, compared
case-insensitively? -/
def matchCI (pat md : Str) : Bool := (md.take pat.length).map lowerA == pat

/-- Leftmost case-insensitive occurrence of `pat` in a text: returns the text
before the match and the text after the matched characters, or `none` when no
position matches. -/
def findCI (pat : Str) : Str → Option (Str × Str)
  | [] => if matchCI pat [] then some ([], []) else none
  | c :: tl =>
    if matchCI pat (c :: tl) then some ([], (c :: tl).drop pat.length)
    else
      match findCI pat tl with
      | some (pre, rest) => some (c :: pre, rest)
      | none => none

/-- The opening reasoning tag scanned by the segmenter. -/
def openTag : Str := "<think>".toList

/-- The closing reasoning tag scanned by the segmenter. -/
def closeTag : Str := "</think>".toList

/-- Worker for the segmenter, with a fuel argument bounding the recursion
depth (each match consumes at least the two tags, so `md.length + 1` fuel is
always enough); the body is the loop of `splitThinkBlocks` in
pages/index.tsx: find the next case-insensitive tag pair, emit the text
before the open tag as a plain segment when non-empty, emit the interior as a
think segment, and continue after the close tag; when no full pair remains,
the remaining text (if non-empty) is one plain segment. -/
def splitGo : Nat → Str → List Segment
  | 0, _ => []
  | fuel + 1, md =>
    match findCI openTag md with
    | none => if md == [] then [] else [⟨md, false⟩]
    | some (pre, afterOpen) =>
      match findCI closeTag afterOpen with
      | none => if md == [] then [] else [⟨md, false⟩]
      | some (inner, rest) =>
        (if pre == [] then [] else [⟨pre, false⟩]) ++
          Segment.mk inner true :: splitGo fuel rest

/-- Embedding of `splitThinkBlocks` (pages/index.tsx). -/
def splitThinkBlocks (md : Str) : List Segment := splitGo (md.length + 1) md

/-- Concatenation of segment contents with canonical think-tags reinserted
around the think segments. -/
def reassemble : List Segment → Str
  | [] => []
  | s :: rest =>
    (if s.isThink then openTag ++ s.content ++ closeTag else s.content) ++
      reassemble rest

/-- The blob writes its think-tags in lower case: at every position where a
think-tag matches case-insensitively, the characters actually present are the
lower-case tag itself.  Tag-free blobs satisfy this vacuously. -/
def tagsLower : Str → Bool
  | [] => true
  | c :: tl =>
    (if matchCI openTag (c :: tl) then
      (c :: tl).take openTag.length == openTag
     else true) &&
    ((if matchCI closeTag (c :: tl) then
       (c :: tl).take closeTag.length == closeTag
      else true) &&
     tagsLower tl)

/-- One streaming delta applied to the buffers of `sendMessage`
(pages/index.tsx): the full buffer is extended by the delta; the rendered
(safe) buffer is set to the new full buffer when it is balanced and left
unchanged otherwise. -/
def clientStep : Str × Str → Str → Str × Str
  | (full, safe), d =>
    (full ++ d, if isBalanced (full ++ d) then full ++ d else safe)

/-- The buffers after processing a sequence of deltas in one turn, starting
from the empty buffers `sendMessage` resets at turn start. -/
def applyDeltas (ds : List Str) : Str × Str := ds.foldl clientStep ([], [])

/-- The terminal flush of `sendMessage` as written in the source: the value
`fc0` read there is the `fullContent` state captured by the closure when the
turn began (the in-loop updates go through functional updaters, but this read
does not), and JavaScript truthiness makes an empty captured value skip the
flush. -/
def finalFlush (fc0 : Str) (st : Str × Str) : Str × Str :=
  (st.1, if fc0 == [] then st.2 else if isBalanced fc0 then fc0 else st.2)

/-- A whole turn as the source executes it: stream the deltas, then run the
terminal flush against the stale captured value `fc0`. -/
def clientTurn (fc0 : Str) (ds : List Str) : Str × Str :=
  finalFlush fc0 (applyDeltas ds)

/-- Modelled from the spec: on the terminal event the final safety re-check
is performed against the latest value of the full buffer, setting the safe
buffer to it when it is balanced. -/
def specFinalFlush (st : Str × Str) : Str × Str :=
  (st.1, if isBalanced st.1 then st.1 else st.2)

/-- Modelled from the spec: a whole turn with the final re-check done against
the latest full buffer. -/
def specClientTurn (ds : List Str) : Str × Str :=
  specFinalFlush (applyDeltas ds)

/-- The events the relay writes on the wire. -/
inductive WireEvent where
  | delta : Str → WireEvent
  | done : WireEvent
  | error : Str → WireEvent
deriving DecidableEq

/-- The provider-side stream as the relay's loop observes it: a sequence of
chunks (each carrying an optional content text, since
`part.choices?.[0]?.delta?.content` may be absent) ending either in normal
exhaustion or in a thrown failure; a failure while opening the stream is the
immediately-failed stream. -/
inductive Upstream where
  | exhausted : Upstream
  | failed : Upstream
  | chunk : Option Str → Upstream → Upstream
deriving DecidableEq

/-- The generic diagnostic the relay's catch block writes. -/
def errorMessage : Str := "OpenAI API error".toList

/-- The truthiness test `if (delta)` of the relay: a chunk contributes text
only when its content field is present and non-empty. -/
def deltaText : Option Str → Option Str
  | some s => if s == [] then none else some s
  | none => none

/-- Embedding of the relay loop of pages/api/chat.ts: one `delta` event per
chunk with non-empty text, then `[DONE]` on exhaustion; a failure ends the
stream with the single generic `error` event. -/
def relay : Upstream → List WireEvent
  | .exhausted => [.done]
  | .failed => [.error errorMessage]
  | .chunk c rest =>
    (match deltaText c with
     | some s => [WireEvent.delta s]
     | none => []) ++ relay rest

/-- The chunks a provider stream carries, in order. -/
def chunksOf : Upstream → List (Option Str)
  | .exhausted => []
  | .failed => []
  | .chunk c rest => c :: chunksOf rest

/-- Whether the provider stream ends in a failure. -/
def endsFailed : Upstream → Bool
  | .exhausted => false
  | .failed => true
  | .chunk _ rest => endsFailed rest

/-- Terminal wire events are `done` and `error`. -/
def isTerminal : WireEvent → Bool
  | .delta _ => false
  | .done => true
  | .error _ => true

/-- What the API route sends back: either a method-not-allowed response with
its status code and Allow values, or the event stream. -/
inductive ApiResponse where
  | methodNotAllowed : Nat → List Str → ApiResponse
  | eventStream : List WireEvent → ApiResponse
deriving DecidableEq

/-- Embedding of the method dispatch of the handler in pages/api/chat.ts: a
non-POST request is answered with status 405 and Allow POST before any
upstream stream is opened; a POST request streams the relay output. -/
def handler (method : Str) (u : Upstream) : ApiResponse :=
  if method == "POST".toList then .eventStream (relay u)
  else .methodNotAllowed 405 [("POST".toList)]

/-- Invariant of the streaming buffers: the safe buffer is a prefix of the
full buffer, and equals it exactly when the full buffer is balanced. -/
def BufInv (st : Str × Str) : Prop :=
  st.2.isPrefixOf st.1 = true ∧ (st.2 = st.1 ↔ isBalanced st.1 = true)

theorem isPrefixOf_iff_ex (a b : Str) :
    a.isPrefixOf b = true ↔ ∃ t, a ++ t = b := by
  rw [ List.isPrefixOf_iff_prefix]
  exact Iff.rfl

theorem prefixOf_refl (a : Str) : a.isPrefixOf a = true := by
  rw [isPrefixOf_iff_ex]
  exact ⟨[], by simp⟩

theorem prefixOf_append (s f d : Str) (h : s.isPrefixOf f = true) :
    s.isPrefixOf (f ++ d) = true := by
  rw [isPrefixOf_iff_ex] at h ⊢
  obtain ⟨t, ht⟩ := h
  exact ⟨t ++ d, by rw [← List.append_assoc, ht]⟩

theorem prefixOf_length (s f : Str) (h : s.isPrefixOf f = true) :
    s.length ≤ f.length := by
  rw [isPrefixOf_iff_ex] at h
  obtain ⟨t, ht⟩ := h
  rw [← ht]
  simp

theorem clientStep_inv (st : Str × Str) (d : Str) (hd : d ≠ [])
    (h : BufInv st) : BufInv (clientStep st d) := by
  obtain ⟨f, s⟩ := st
  obtain ⟨hpre, hiff⟩ := h
  by_cases hb : isBalanced (f ++ d) = true
  · exact ⟨by simp [clientStep, hb, prefixOf_refl], by simp [clientStep, hb]⟩
  · refine ⟨by simp only [clientStep, if_neg hb]; exact prefixOf_append s f d hpre, ?_⟩
    simp only [clientStep, if_neg hb]
    constructor
    · intro heq
      exfalso
      have h1 : s.length ≤ f.length := prefixOf_length s f hpre
      have h2 : s.length = f.length + d.length := by
        rw [heq]
        simp
      have h3 : 0 < d.length := List.length_pos.mpr hd
      omega
    · intro hc
      exact absurd hc hb

theorem foldl_clientStep_inv (ds : List Str) (st : Str × Str)
    (h : BufInv st) (hds : ∀ d ∈ ds, d ≠ []) :
    BufInv (ds.foldl clientStep st) := by
  induction ds generalizing st with
  | nil => exact h
  | cons d tl ih =>
    simp only [List.foldl_cons]
    refine ih (clientStep st d) ?_ ?_
    · exact clientStep_inv st d (hds d (by simp)) h
    · intro e he
      exact hds e (by simp [he])

theorem BufInv_init : BufInv (([] : Str), ([] : Str)) := by
  constructor
  · exact prefixOf_refl []
  · simp
    decide

theorem foldl_clientStep_prefixOf (ds : List Str) (st : Str × Str)
    (h : st.2.isPrefixOf st.1 = true) :
    (ds.foldl clientStep st).2.isPrefixOf (ds.foldl clientStep st).1 = true := by
  induction ds generalizing st with
  | nil => exact h
  | cons d tl ih =>
    simp only [List.foldl_cons]
    refine ih (clientStep st d) ?_
    obtain ⟨f, s⟩ := st
    by_cases hb : isBalanced (f ++ d) = true
    · simp [clientStep, hb, prefixOf_refl]
    · simp only [clientStep, if_neg hb]
      exact prefixOf_append s f d h

theorem applyDeltas_prefixOf (ds : List Str) :
    (applyDeltas ds).2.isPrefixOf (applyDeltas ds).1 = true :=
  foldl_clientStep_prefixOf ds ([], []) (prefixOf_refl [])

theorem findCI_eq (pat : Str) (md : Str) :
    ∀ pre rest : Str, findCI pat md = some (pre, rest) →
      ∃ t, md = pre ++ t ++ rest ∧ t.map lowerA = pat := by
  induction md with
  | nil =>
    intro pre rest h
    simp only [findCI] at h
    split at h
    · rename_i hm
      obtain ⟨hp, hr⟩ : pre = [] ∧ rest = [] := by
        cases h
        exact ⟨rfl, rfl⟩
      subst hp
      subst hr
      refine ⟨[], by simp, ?_⟩
      have : (([] : Str) == pat) = true := by
        simpa [matchCI] using hm
      simpa using (beq_iff_eq.mp this).symm
    · cases h
  | cons c tl ih =>
    intro pre rest h
    simp only [findCI] at h
    split at h
    · rename_i hm
      obtain ⟨hp, hr⟩ : pre = [] ∧ rest = (c :: tl).drop pat.length := by
        cases h
        exact ⟨rfl, rfl⟩
      subst hp
      subst hr
      refine ⟨(c :: tl).take pat.length, ?_, ?_⟩
      · simp
      · have : (((c :: tl).take pat.length).map lowerA == pat) = true := hm
        exact beq_iff_eq.mp this
    · rename_i hm
      cases hf : findCI pat tl with
      | none =>
        rw [hf] at h
        cases h
      | some pr =>
        obtain ⟨pre', rest'⟩ := pr
        rw [hf] at h
        obtain ⟨hp, hr⟩ : pre = c :: pre' ∧ rest = rest' := by
          cases h
          exact ⟨rfl, rfl⟩
        subst hp
        subst hr
        obtain ⟨t, htl, hmap⟩ := ih pre' rest hf
        exact ⟨t, by simp [htl], hmap⟩

theorem findCI_lengths (pat md pre rest : Str)
    (h : findCI pat md = some (pre, rest)) :
    md.length = pre.length + pat.length + rest.length := by
  obtain ⟨t, hmd, hmap⟩ := findCI_eq pat md pre rest h
  have ht : t.length = pat.length := by
    have := congrArg List.length hmap
    simpa using this
  subst hmd
  simp [ht]
  omega

theorem reassemble_append (xs ys : List Segment) :
    reassemble (xs ++ ys) = reassemble xs ++ reassemble ys := by
  induction xs with
  | nil => simp [reassemble]
  | cons s tl ih => simp [reassemble, ih]

theorem splitGo_reassemble (fuel : Nat) :
    ∀ md : Str, md.length < fuel →
      (reassemble (splitGo fuel md)).map lowerA = md.map lowerA := by
  induction fuel with
  | zero =>
    intro md h
    exact absurd h (Nat.not_lt_zero _)
  | succ n ih =>
    intro md hlen
    cases h1 : findCI openTag md with
    | none =>
      by_cases hmd : md = []
      · subst hmd
        simp [splitGo, h1, reassemble]
      · have hne : (md == []) = false := beq_eq_false_iff_ne.mpr hmd
        simp [splitGo, h1, hne, reassemble]
    | some pr =>
      obtain ⟨pre, afterOpen⟩ := pr
      cases h2 : findCI closeTag afterOpen with
      | none =>
        by_cases hmd : md = []
        · subst hmd
          simp [splitGo, h1, h2, reassemble]
        · have hne : (md == []) = false := beq_eq_false_iff_ne.mpr hmd
          simp [splitGo, h1, h2, hne, reassemble]
      | some pr2 =>
        obtain ⟨inner, rest⟩ := pr2
        obtain ⟨t1, hmd1, hm1⟩ := findCI_eq openTag md pre afterOpen h1
        obtain ⟨t2, hao, hm2⟩ := findCI_eq closeTag afterOpen inner rest h2
        have hopen7 : openTag.length = 7 := by decide
        have hclose8 : closeTag.length = 8 := by decide
        have hrest : rest.length < n := by
          have hlm := findCI_lengths openTag md pre afterOpen h1
          have hla := findCI_lengths closeTag afterOpen inner rest h2
          omega
        have ihr := ih rest hrest
        have hpre : reassemble (if pre == [] then [] else [⟨pre, false⟩]) = pre := by
          by_cases hp : pre = []
          · simp [hp, reassemble]
          · have hne : (pre == []) = false := beq_eq_false_iff_ne.mpr hp
            simp [hne, reassemble]
        have hoA : openTag.map lowerA = openTag := by decide
        have hcA : closeTag.map lowerA = closeTag := by decide
        simp only [splitGo, h1, h2]
        rw [reassemble_append, hpre]
        simp only [reassemble]
        rw [hmd1, hao]
        simp [List.map_append, hm1, hm2, ihr, hoA, hcA, List.append_assoc]

/-- Every plain (non-think) segment the segmenter emits has non-empty
content. -/
theorem splitGo_plain_ne (fuel : Nat) :
    ∀ md : Str, md.length < fuel →
      ∀ seg ∈ splitGo fuel md, seg.isThink = false → seg.content ≠ [] := by
  induction fuel with
  | zero =>
    intro md h
    exact absurd h (Nat.not_lt_zero _)
  | succ n ih =>
    intro md hlen seg hseg hthink
    cases h1 : findCI openTag md with
    | none =>
      by_cases hmd : md = []
      · subst hmd
        simp [splitGo, h1] at hseg
      · have hne : (md == []) = false := beq_eq_false_iff_ne.mpr hmd
        simp [splitGo, h1, hne] at hseg
        rw [hseg]
        exact hmd
    | some pr =>
      obtain ⟨pre, afterOpen⟩ := pr
      cases h2 : findCI closeTag afterOpen with
      | none =>
        by_cases hmd : md = []
        · subst hmd
          simp [splitGo, h1, h2] at hseg
        · have hne : (md == []) = false := beq_eq_false_iff_ne.mpr hmd
          simp [splitGo, h1, h2, hne] at hseg
          rw [hseg]
          exact hmd
      | some pr2 =>
        obtain ⟨inner, rest⟩ := pr2
        obtain ⟨t1, hmd1, hm1⟩ := findCI_eq openTag md pre afterOpen h1
        obtain ⟨t2, hao, hm2⟩ := findCI_eq closeTag afterOpen inner rest h2
        have hopen7 : openTag.length = 7 := by decide
        have hclose8 : closeTag.length = 8 := by decide
        have hrest : rest.length < n := by
          have hlm := findCI_lengths openTag md pre afterOpen h1
          have hla := findCI_lengths closeTag afterOpen inner rest h2
          omega
        simp only [splitGo, h1, h2, List.mem_append, List.mem_cons] at hseg
        rcases hseg with hin | hin
        · by_cases hp : pre = []
          · simp [hp] at hin
          · have hne : (pre == []) = false := beq_eq_false_iff_ne.mpr hp
            simp [hne] at hin
            rw [hin]
            exact hp
        · rcases hin with hin | hin
          · rw [hin] at hthink
            cases hthink
          · exact ih rest hrest seg hin hthink

theorem tagsLower_tail (c : Char) (tl : Str)
    (h : tagsLower (c :: tl) = true) : tagsLower tl = true := by
  simp only [tagsLower, Bool.and_eq_true] at h
  exact h.2.2

theorem tagsLower_of_append (xs ys : Str)
    (h : tagsLower (xs ++ ys) = true) : tagsLower ys = true := by
  induction xs with
  | nil => exact h
  | cons c tl ih => exact ih (tagsLower_tail c (tl ++ ys) h)

theorem tagsLower_take_open (md : Str) (h : tagsLower md = true)
    (hm : matchCI openTag md = true) :
    md.take openTag.length = openTag := by
  cases md with
  | nil => exact absurd hm (by decide)
  | cons c tl =>
    simp only [tagsLower, Bool.and_eq_true] at h
    have h1 := h.1
    rw [if_pos hm] at h1
    exact beq_iff_eq.mp h1

theorem tagsLower_take_close (md : Str) (h : tagsLower md = true)
    (hm : matchCI closeTag md = true) :
    md.take closeTag.length = closeTag := by
  cases md with
  | nil => exact absurd hm (by decide)
  | cons c tl =>
    simp only [tagsLower, Bool.and_eq_true] at h
    have h1 := h.2.1
    rw [if_pos hm] at h1
    exact beq_iff_eq.mp h1

theorem splitGo_reassemble_exact (fuel : Nat) :
    ∀ md : Str, md.length < fuel → tagsLower md = true →
      reassemble (splitGo fuel md) = md := by
  induction fuel with
  | zero =>
    intro md h
    exact absurd h (Nat.not_lt_zero _)
  | succ n ih =>
    intro md hlen htags
    cases h1 : findCI openTag md with
    | none =>
      by_cases hmd : md = []
      · subst hmd
        simp [splitGo, h1, reassemble]
      · have hne : (md == []) = false := beq_eq_false_iff_ne.mpr hmd
        simp [splitGo, h1, hne, reassemble]
    | some pr =>
      obtain ⟨pre, afterOpen⟩ := pr
      cases h2 : findCI closeTag afterOpen with
      | none =>
        by_cases hmd : md = []
        · subst hmd
          simp [splitGo, h1, h2, reassemble]
        · have hne : (md == []) = false := beq_eq_false_iff_ne.mpr hmd
          simp [splitGo, h1, h2, hne, reassemble]
      | some pr2 =>
        obtain ⟨inner, rest⟩ := pr2
        obtain ⟨t1, hmd1, hm1⟩ := findCI_eq openTag md pre afterOpen h1
        obtain ⟨t2, hao, hm2⟩ := findCI_eq closeTag afterOpen inner rest h2
        have hopen7 : openTag.length = 7 := by decide
        have hclose8 : closeTag.length = 8 := by decide
        have ht1l : t1.length = openTag.length := by
          have := congrArg List.length hm1
          simpa using this
        have ht2l : t2.length = closeTag.length := by
          have := congrArg List.length hm2
          simpa using this
        have htag1 : tagsLower (t1 ++ afterOpen) = true := by
          refine tagsLower_of_append pre _ ?_
          rw [← List.append_assoc, ← hmd1]
          exact htags
        have hmci1 : matchCI openTag (t1 ++ afterOpen) = true := by
          have htake : (t1 ++ afterOpen).take openTag.length = t1 := by
            rw [← ht1l]
            exact List.take_left t1 afterOpen
          simp only [matchCI]
          rw [htake, hm1]
          simp
        have ht1eq : t1 = openTag := by
          have h := tagsLower_take_open (t1 ++ afterOpen) htag1 hmci1
          rw [← ht1l, List.take_left] at h
          exact h
        have htag2 : tagsLower (t2 ++ rest) = true := by
          refine tagsLower_of_append inner _ ?_
          rw [← List.append_assoc, ← hao]
          exact tagsLower_of_append t1 afterOpen htag1
        have hmci2 : matchCI closeTag (t2 ++ rest) = true := by
          have htake : (t2 ++ rest).take closeTag.length = t2 := by
            rw [← ht2l]
            exact List.take_left t2 rest
          simp only [matchCI]
          rw [htake, hm2]
          simp
        have ht2eq : t2 = closeTag := by
          have h := tagsLower_take_close (t2 ++ rest) htag2 hmci2
          rw [← ht2l, List.take_left] at h
          exact h
        have hrest_tags : tagsLower rest = true :=
          tagsLower_of_append t2 rest htag2
        have hrest : rest.length < n := by
          have hlm := findCI_lengths openTag md pre afterOpen h1
          have hla := findCI_lengths closeTag afterOpen inner rest h2
          omega
        have ihr := ih rest hrest hrest_tags
        have hpre : reassemble (if pre == [] then [] else [⟨pre, false⟩]) = pre := by
          by_cases hp : pre = []
          · simp [hp, reassemble]
          · have hne : (pre == []) = false := beq_eq_false_iff_ne.mpr hp
            simp [hne, reassemble]
        simp only [splitGo, h1, h2]
        rw [reassemble_append, hpre]
        rw [hmd1, hao, ht1eq, ht2eq]
        simp [reassemble, ihr, List.append_assoc]

theorem relay_characterisation (u : Upstream) :
    relay u = ((chunksOf u).filterMap deltaText).map WireEvent.delta ++
      [if endsFailed u = true then WireEvent.error errorMessage
       else WireEvent.done] := by
  induction u with
  | exhausted => simp [relay, chunksOf, endsFailed]
  | failed => simp [relay, chunksOf, endsFailed]
  | chunk c rest ih =>
    simp only [relay, chunksOf, endsFailed, List.filterMap_cons]
    cases deltaText c with
    | none => simpa using ih
    | some s => simpa using ih

/-- Claim C1: the safety predicate declares a text safe iff the number of
occurrences of the three-backtick code-fence delimiter and the number of
occurrences of the double-dollar math-block delimiter are both even. -/
theorem c1_isBalanced_iff_even_counts (md : Str) :
    isBalanced md = true ↔
      Even (countOcc fenceTok md) ∧ Even (countOcc mathTok md) := by
  simp [isBalanced, Nat.even_iff]

/-- Claim C2: in a streaming turn whose applied deltas all carry non-empty
text, after each delta the safe buffer is a prefix of the full buffer, the
safe buffer equals the full buffer exactly when the full buffer is balanced,
and each step sets safe to the new full when balanced and leaves it unchanged
otherwise. -/
theorem c2_safe_buffer_invariant (ds : List Str)
    (hds : ∀ d ∈ ds, d ≠ ([] : Str)) :
    (applyDeltas ds).2.isPrefixOf (applyDeltas ds).1 = true ∧
    ((applyDeltas ds).2 = (applyDeltas ds).1 ↔
      isBalanced (applyDeltas ds).1 = true) ∧
    ∀ f s d : Str,
      clientStep (f, s) d =
        (f ++ d, if isBalanced (f ++ d) then f ++ d else s) := by
  have h := foldl_clientStep_inv ds ([], []) BufInv_init hds
  exact ⟨h.1, h.2, fun f s d => rfl⟩

/-- Witness for C2 at the delta sequence consisting of the single non-empty
text "ab". -/
theorem c2_safe_buffer_invariant_witness :
    (∀ d ∈ [("ab".toList)], d ≠ ([] : Str)) ∧
    ((applyDeltas [("ab".toList)]).2.isPrefixOf
        (applyDeltas [("ab".toList)]).1 = true ∧
      ((applyDeltas [("ab".toList)]).2 = (applyDeltas [("ab".toList)]).1 ↔
        isBalanced (applyDeltas [("ab".toList)]).1 = true) ∧
      ∀ f s d : Str,
        clientStep (f, s) d =
          (f ++ d, if isBalanced (f ++ d) then f ++ d else s)) :=
  ⟨by decide, c2_safe_buffer_invariant [("ab".toList)] (by decide)⟩

/-- Claim C3: appending one more delta to a turn never makes the safe buffer
shorter. -/
theorem c3_safe_length_monotone (ds : List Str) (d : Str) :
    (applyDeltas ds).2.length ≤ (applyDeltas (ds ++ [d])).2.length := by
  have happ : applyDeltas (ds ++ [d]) = clientStep (applyDeltas ds) d := by
    simp [applyDeltas, List.foldl_append]
  have hpre := applyDeltas_prefixOf ds
  have hlen := prefixOf_length _ _ hpre
  rw [happ]
  rcases hst : applyDeltas ds with ⟨f, s⟩
  rw [hst] at hlen
  simp only at hlen
  by_cases hb : isBalanced (f ++ d) = true
  · simp only [clientStep, if_pos hb]
    simp
    omega
  · simp [clientStep, if_neg hb]

/-- Claim C4 (code bug): the terminal flush of `sendMessage` evaluates the
balance check on the `fullContent` value captured by the closure before the
turn started, not on the latest full buffer.  With captured value "ok" (a
balanced, non-empty leftover of the previous turn) and the single delta "hi",
the code ends the turn with full "hi" but safe "ok", while the flush the spec
describes keeps safe equal to the latest full "hi"; the stale safe is not
even a prefix of the full buffer. -/
theorem c4_final_flush_stale_capture :
    clientTurn ("ok".toList) [("hi".toList)] =
      (("hi".toList : Str), ("ok".toList : Str)) ∧
    specClientTurn [("hi".toList)] =
      (("hi".toList : Str), ("hi".toList : Str)) ∧
    clientTurn ("ok".toList) [("hi".toList)] ≠
      specClientTurn [("hi".toList)] ∧
    (clientTurn ("ok".toList) [("hi".toList)]).2.isPrefixOf
      (clientTurn ("ok".toList) [("hi".toList)]).1 = false := by
  refine ⟨by decide, by decide, by decide, by decide⟩

/-- Counterexample for claim C5 as stated: think-tags match
case-insensitively, so the blob with upper-case tags is segmented into the
interior "a", and reinserting the (canonical, lower-case) think-tags does not
reproduce the original blob character for character. -/
theorem c5_counterexample :
    reassemble (splitThinkBlocks ("<THINK>a</THINK>".toList)) ≠
      ("<THINK>a</THINK>".toList) := by
  decide

/-- Claim C5 (amended): the segments cover the blob in order with no gaps and
no overlaps; concatenating their contents with think-tags reinserted around
the think segments reconstructs the original blob up to the ASCII case of the
matched tag characters: the reconstruction and the blob are equal after ASCII
lowercasing, and whenever the blob writes its think-tags in lower case (in
particular for tag-free blobs) the reconstruction is equal to the blob
character for character. -/
theorem c5_reassemble_covers (md : Str) :
    (reassemble (splitThinkBlocks md)).map lowerA = md.map lowerA ∧
    (tagsLower md = true → reassemble (splitThinkBlocks md) = md) :=
  ⟨splitGo_reassemble (md.length + 1) md (Nat.lt_succ_self _),
   fun h => splitGo_reassemble_exact (md.length + 1) md (Nat.lt_succ_self _) h⟩

/-- Witness for C5 at a blob with lower-case tags and upper-case content: the
reconstruction is exact character for character. -/
theorem c5_reassemble_covers_witness :
    tagsLower ("<think>r</think>ANSWER".toList) = true ∧
    reassemble (splitThinkBlocks ("<think>r</think>ANSWER".toList)) =
      ("<think>r</think>ANSWER".toList) :=
  ⟨by decide,
   (c5_reassemble_covers ("<think>r</think>ANSWER".toList)).2 (by decide)⟩

/-- Claim C6: think regions are matched case-insensitively, non-greedily and
left to right, the interior is kept with the tags stripped, an unterminated
open tag is kept as ordinary plain text, and the example blob splits into
exactly the think segment "reasoning" followed by the plain segment
"answer". -/
theorem c6_think_matching :
    splitThinkBlocks ("<think>reasoning</think>answer".toList) =
      [⟨"reasoning".toList, true⟩, ⟨"answer".toList, false⟩] ∧
    splitThinkBlocks ("<THINK>reasoning</ThInK>answer".toList) =
      [⟨"reasoning".toList, true⟩, ⟨"answer".toList, false⟩] ∧
    splitThinkBlocks ("<think>a</think>b</think>".toList) =
      [⟨"a".toList, true⟩, ⟨"b</think>".toList, false⟩] ∧
    ∀ md pre rest : Str, findCI openTag md = some (pre, rest) →
      findCI closeTag rest = none →
      splitThinkBlocks md = [⟨md, false⟩] := by
  refine ⟨by decide, by decide, by decide, ?_⟩
  intro md pre rest h1 h2
  obtain ⟨t1, hmd1, hm1⟩ := findCI_eq openTag md pre rest h1
  have hne : md ≠ [] := by
    intro hmd
    rw [hmd] at hmd1
    have ht1 : t1.length = openTag.length := by
      have := congrArg List.length hm1
      simpa using this
    have h7 : openTag.length = 7 := by decide
    have := congrArg List.length hmd1
    simp only [List.length_nil, List.length_append, ht1, h7] at this
    omega
  have hnb : (md == []) = false := beq_eq_false_iff_ne.mpr hne
  simp [splitThinkBlocks, splitGo, h1, h2, hnb]

/-- Witness for C6 at the unterminated blob consisting of an open tag and the
letter x. -/
theorem c6_think_matching_witness :
    splitThinkBlocks ("<think>x".toList) =
      [⟨"<think>x".toList, false⟩] :=
  c6_think_matching.2.2.2 ("<think>x".toList) [] ("x".toList)
    (by decide) (by decide)

/-- Claim C7: the relay emits one delta event per upstream chunk carrying
non-empty text, with exactly that text, in order and without coalescing,
followed by the single terminal event: done on exhaustion, the generic error
on failure. -/
theorem c7_relay_event_stream (u : Upstream) :
    relay u = ((chunksOf u).filterMap deltaText).map WireEvent.delta ++
      [if endsFailed u = true then WireEvent.error errorMessage
       else WireEvent.done] :=
  relay_characterisation u

/-- Claim C8: every relay stream contains exactly one terminal event, and it
is the last event of the stream. -/
theorem c8_single_terminal_event (u : Upstream) :
    ∃ ds t, relay u = ds ++ [t] ∧ isTerminal t = true ∧
      ∀ e ∈ ds, isTerminal e = false := by
  refine ⟨((chunksOf u).filterMap deltaText).map WireEvent.delta,
    if endsFailed u = true then WireEvent.error errorMessage
    else WireEvent.done, relay_characterisation u, ?_, ?_⟩
  · by_cases h : endsFailed u = true
    · simp [h, isTerminal]
    · simp [h, isTerminal]
  · intro e he
    simp only [List.mem_map] at he
    obtain ⟨s, _, rfl⟩ := he
    rfl

/-- Claim C9: a request whose method is not POST is answered with status 405
and an Allow POST header, and the response does not depend on the upstream
stream, which is never opened. -/
theorem c9_non_post_rejected (m : Str) (u : Upstream)
    (hm : m ≠ "POST".toList) :
    handler m u = ApiResponse.methodNotAllowed 405 [("POST".toList)] ∧
    ∀ v : Upstream, handler m v = handler m u := by
  have hf : (m == "POST".toList) = false := beq_eq_false_iff_ne.mpr hm
  constructor
  · simp only [handler, hf]
    simp
  · intro v
    simp only [handler, hf]
    simp

/-- Witness for C9 at the GET method. -/
theorem c9_non_post_rejected_witness :
    handler ("GET".toList) Upstream.exhausted =
      ApiResponse.methodNotAllowed 405 [("POST".toList)] :=
  (c9_non_post_rejected ("GET".toList) Upstream.exhausted (by decide)).1

/-- Claim C10: every plain (non-think) segment the segmenter produces has
non-empty content, while a think segment may be empty: the blob consisting of
an adjacent tag pair yields exactly one think segment with empty content. -/
theorem c10_plain_segments_nonempty :
    (∀ md : Str, ∀ seg ∈ splitThinkBlocks md,
      seg.isThink = false → seg.content ≠ []) ∧
    splitThinkBlocks ("<think></think>".toList) = [⟨[], true⟩] := by
  constructor
  · intro md seg hseg hthink
    exact splitGo_plain_ne (md.length + 1) md (Nat.lt_succ_self _) seg hseg
      hthink
  · decide

/-- Witness for C10 at the blob consisting of the single letter a. -/
theorem c10_plain_segments_nonempty_witness :
    (Segment.mk ("a".toList) false).content ≠ [] :=
  c10_plain_segments_nonempty.1 ("a".toList) (Segment.mk ("a".toList) false)
    (by decide) (by decide)
